import Mathlib

/-!
Shallow embedding of `src/munged/hash.c` (MUNGE hash table with separate
chaining and pooled node allocator), together with proofs checking the
module's natural-language specification against the code.

Modelling conventions:
* Pointers that may be NULL appear as `Option` arguments/results.
* `errno` effects are returned explicitly: a bare `Nat` when the function
  always assigns `errno` (0 = no error), an `Option Nat` when a successful
  path leaves `errno` untouched.
* The caller-supplied deletion callback `del_f` is opaque; only its
  presence is observable, so it is modelled by a `Bool`, and each
  operation that would invoke it additionally returns the list of data
  values it was invoked on (in invocation order).  Likewise `delete_if`
  returns the trace of `(data, key)` pairs its predicate was called on.
* `hash_node_alloc` calls `malloc`; success of the underlying allocation
  is an explicit `Bool` parameter (`allocOk` / `mallocOk`).
* C `unsigned int` arithmetic is `Nat` arithmetic modulo 4294967296
  (2^32), taken after every operation that can wrap.
-/

namespace Munge

/-- Linux errno value for EINVAL. -/
def EINVAL : Nat := 22

/-- Linux errno value for EEXIST. -/
def EEXIST : Nat := 17

/-- Linux errno value for ENOMEM. -/
def ENOMEM : Nat := 12

/-- Constant `HASH_DEF_SIZE` from hash.c line 46. -/
def HASH_DEF_SIZE : Nat := 1213

/-- Constant `HASH_NODE_ALLOC_NUM` from hash.c line 47. -/
def HASH_NODE_ALLOC_NUM : Nat := 1024

/-- A chain node (`struct hash_node`): the key and data references.
The `next` pointer of the C struct is represented by the position of the
node in a Lean `List` that models the chain. -/
structure HNode (K D : Type) where
  data : D
  hkey : K
deriving DecidableEq, Repr

/-- The hash table (`struct hash`).  `table` is the bucket array
(`count`/`size`/`table`/`cmp_f`/`del_f`/`key_f` in declaration order);
the mutex is not modelled (all operations are atomic in this embedding).
`del_f` is a presence flag for the opaque deletion callback. -/
structure Hash (K D : Type) where
  count : Int
  size : Nat
  table : List (List (HNode K D))
  cmp_f : K → K → Int
  del_f : Bool
  key_f : K → Nat

variable {K D : Type}

/-- The bucket a key is routed to: `h->table[h->key_f (key) % h->size]`. -/
def bucketOf (h : Hash K D) (key : K) : List (HNode K D) :=
  h.table.getD (h.key_f key % h.size) []

/-- Chain walk of `hash_find` (hash.c lines 274-283): negative comparison
continues, zero returns the node's data, positive stops (not found). -/
def findChain (cmp : K → K → Int) (key : K) : List (HNode K D) → Option D
  | [] => none
  | p :: rest =>
    if cmp p.hkey key < 0 then findChain cmp key rest
    else if cmp p.hkey key = 0 then some p.data
    else none

/-- `hash_find` (hash.c lines 259-286).  Returns the result and the value
assigned to `errno` (the function always assigns it). -/
def hash_find (oh : Option (Hash K D)) (okey : Option K) : Option D × Nat :=
  match oh, okey with
  | some h, some key => (findChain h.cmp_f key (bucketOf h key), 0)
  | _, _ => (none, EINVAL)

/-- Chain walk of `hash_insert` (hash.c lines 310-329): skip nodes
comparing negative, fail on zero (EEXIST), splice the new node in front of
the first node comparing positive (or at the end). -/
def insertChain (cmp : K → K → Int) (key : K) (data : D) :
    List (HNode K D) → Except Unit (List (HNode K D))
  | [] => .ok [⟨data, key⟩]
  | p :: rest =>
    if cmp p.hkey key < 0 then (insertChain cmp key data rest).map (p :: ·)
    else if cmp p.hkey key = 0 then .error ()
    else .ok (⟨data, key⟩ :: p :: rest)

/-- `hash_insert` (hash.c lines 296-335).  `allocOk` tells whether the
`hash_node_alloc` call (made only after the walk finds no equal key)
succeeds.  Returns (result, table state, errno assignment if any). -/
def hash_insert (allocOk : Bool) (oh : Option (Hash K D)) (okey : Option K)
    (odata : Option D) : Option D × Option (Hash K D) × Option Nat :=
  match oh, okey, odata with
  | some h, some key, some data =>
    match insertChain h.cmp_f key data (bucketOf h key) with
    | .error _ => (none, some h, some EEXIST)
    | .ok c =>
      if allocOk then
        (some data,
         some { h with table := h.table.set (h.key_f key % h.size) c,
                       count := h.count + 1 },
         none)
      else (none, some h, some ENOMEM)
  | _, _, _ => (none, oh, some EINVAL)

/-- Chain walk of `hash_remove` (hash.c lines 359-371): skip nodes
comparing negative, unlink on zero, stop on positive.  Returns the removed
data (if any) and the resulting chain. -/
def removeChain (cmp : K → K → Int) (key : K) :
    List (HNode K D) → Option D × List (HNode K D)
  | [] => (none, [])
  | p :: rest =>
    if cmp p.hkey key < 0 then
      ((removeChain cmp key rest).1, p :: (removeChain cmp key rest).2)
    else if cmp p.hkey key = 0 then (some p.data, rest)
    else (none, p :: rest)

/-- `hash_remove` (hash.c lines 343-374).  Returns (result, table state,
errno value assigned — the function always assigns one). -/
def hash_remove (oh : Option (Hash K D)) (okey : Option K) :
    Option D × Option (Hash K D) × Nat :=
  match oh, okey with
  | some h, some key =>
    match removeChain h.cmp_f key (bucketOf h key) with
    | (some d, c) =>
      (some d,
       some { h with table := h.table.set (h.key_f key % h.size) c,
                     count := h.count - 1 },
       0)
    | (none, _) => (none, some h, 0)
  | _, _ => (none, oh, EINVAL)

/-- Chain walk of `hash_delete_if` (hash.c lines 398-411): each node whose
predicate result is greater than zero is unlinked (its data passed to the
deletion callback when present).  Returns the surviving chain, the number
removed, the data values the deletion callback was invoked on, and the
trace of `(data, key)` pairs the predicate was called on. -/
def deleteIfChain (delp : Bool) (pred : D → K → Int) :
    List (HNode K D) → List (HNode K D) × Nat × List D × List (D × K)
  | [] => ([], 0, [], [])
  | p :: rest =>
    let r := deleteIfChain delp pred rest
    if 0 < pred p.data p.hkey then
      (r.1, r.2.1 + 1, (if delp then [p.data] else []) ++ r.2.2.1,
       (p.data, p.hkey) :: r.2.2.2)
    else
      (p :: r.1, r.2.1, r.2.2.1, (p.data, p.hkey) :: r.2.2.2)

/-- Bucket loop of `hash_delete_if` (hash.c lines 397-412), over the
bucket array in index order. -/
def deleteIfTable (delp : Bool) (pred : D → K → Int) :
    List (List (HNode K D)) →
    List (List (HNode K D)) × Nat × List D × List (D × K)
  | [] => ([], 0, [], [])
  | c :: rest =>
    let r1 := deleteIfChain delp pred c
    let r2 := deleteIfTable delp pred rest
    (r1.1 :: r2.1, r1.2.1 + r2.2.1, r1.2.2.1 ++ r2.2.2.1,
     r1.2.2.2 ++ r2.2.2.2)

/-- `hash_delete_if` (hash.c lines 384-415).  Returns (number deleted or
-1, table state, deletion-callback trace, predicate-call trace). -/
def hash_delete_if (oh : Option (Hash K D)) (opred : Option (D → K → Int)) :
    Int × Option (Hash K D) × List D × List (D × K) :=
  match oh, opred with
  | some h, some pred =>
    let r := deleteIfTable h.del_f pred h.table
    ((r.2.1 : Int),
     some { h with table := r.1, count := h.count - r.2.1 },
     r.2.2.1, r.2.2.2)
  | _, _ => (-1, oh, [], [])

/-- `hash_reset` (hash.c lines 191-213): frees every node of every bucket
(invoking the deletion callback on each data value when present), clears
every bucket, and zeroes the count.  Returns the table state and the
deletion-callback trace. -/
def hash_reset (oh : Option (Hash K D)) : Option (Hash K D) × List D :=
  match oh with
  | some h =>
    (some { h with
             count := 0,
             table := h.table.map fun _ => [] },
     if h.del_f then (h.table.map fun c => c.map (·.data)).flatten else [])
  | none => (none, [])

/-- `hash_is_empty` (hash.c lines 219-232): 1 if empty, 0 if not,
-1 (with errno EINVAL) if the table is NULL. -/
def hash_is_empty (oh : Option (Hash K D)) : Int :=
  match oh with
  | some h => if h.count = 0 then 1 else 0
  | none => -1

/-- `hash_count` (hash.c lines 238-251). -/
def hash_count (oh : Option (Hash K D)) : Int :=
  match oh with
  | some h => h.count
  | none => -1

/-- `hash_create` (hash.c lines 127-153).  `allocOk` tells whether the two
heap allocations succeed.  Returns the new table (or `none`) and the errno
assignment if any. -/
def hash_create (allocOk : Bool) (size : Int) (okey_f : Option (K → Nat))
    (ocmp_f : Option (K → K → Int)) (del_f : Bool) :
    Option (Hash K D) × Option Nat :=
  match ocmp_f, okey_f with
  | some cmp_f, some key_f =>
    let sz : Nat := if size ≤ 0 then HASH_DEF_SIZE else size.toNat
    if allocOk then
      (some ⟨0, sz, List.replicate sz [], cmp_f, del_f, key_f⟩, none)
    else (none, some ENOMEM)
  | _, _ => (none, some EINVAL)

/-- Loop of `hash_key_string` (hash.c lines 483-485):
`hval += (multiplier * hval) + *p` in `unsigned int` arithmetic, with
`multiplier = 31`.  Bytes are the string's bytes before the terminating
NUL. -/
def hash_key_string_loop (hval : Nat) : List Nat → Nat
  | [] => hval
  | b :: rest =>
      hash_key_string_loop
        ((hval + ((31 * hval) % 4294967296 + b) % 4294967296) % 4294967296)
        rest

/-- `hash_key_string` (hash.c lines 476-487). -/
def hash_key_string (s : List Nat) : Nat :=
  hash_key_string_loop 0 s

/-- The spec's stated accumulation `hval = hval * 31 + byte` (spec §4.3),
as a left fold with unsigned wraparound, for comparison against the
code's `hash_key_string`. -/
def hash_key_string_spec31 (s : List Nat) : Nat :=
  s.foldl (fun hval b => (hval * 31 + b) % 4294967296) 0

/-- The accumulation the code actually performs, `hval = hval * 32 + byte`
under unsigned wraparound, as a left fold. -/
def hash_key_string_spec32 (s : List Nat) : Nat :=
  s.foldl (fun hval b => (hval * 32 + b) % 4294967296) 0

/-! ### Node allocator -/

/-- A pooled node slot: its identity (address) and an abstraction of the
bytes currently stored in it (0 = all zero).  Fresh `malloc`ed slots carry
the nonzero marker 1 for indeterminate contents. -/
structure RawNode where
  id : Nat
  content : Nat
deriving DecidableEq, Repr

/-- Allocator globals (hash.c lines 86-108): the block-tracking list
`hash_mem_list` (each block given by the ids of the node slots it
provides), the free list `hash_free_list`, and a source of fresh slot
addresses. -/
structure AllocState where
  hash_mem_list : List (List Nat)
  hash_free_list : List RawNode
  next_id : Nat
deriving DecidableEq, Repr

/-- Refill step of `hash_node_alloc` (hash.c lines 507-522): when the
free list is empty and `malloc` succeeds, push one block of
`HASH_NODE_ALLOC_NUM` fresh slots onto the block list and thread its
slots into the free list in address order. -/
def hash_node_refill (mallocOk : Bool) (s : AllocState) : AllocState :=
  if s.hash_free_list.isEmpty then
    if mallocOk then
      { hash_mem_list :=
          List.range' s.next_id HASH_NODE_ALLOC_NUM :: s.hash_mem_list,
        hash_free_list :=
          (List.range' s.next_id HASH_NODE_ALLOC_NUM).map fun i => ⟨i, 1⟩,
        next_id := s.next_id + HASH_NODE_ALLOC_NUM }
    else s
  else s

/-- `hash_node_alloc` (hash.c lines 494-533): refill the free list if
empty (one `malloc`ed block, success given by `mallocOk`), then pop the
head of the free list and zero it (`memset`); ENOMEM when the free list
is still empty.  Returns (node or `none`, new state, errno assignment if
any). -/
def hash_node_alloc (mallocOk : Bool) (s : AllocState) :
    Option RawNode × AllocState × Option Nat :=
  match (hash_node_refill mallocOk s).hash_free_list with
  | p :: rest =>
    (some ⟨p.id, 0⟩,
     { hash_node_refill mallocOk s with hash_free_list := rest }, none)
  | [] => (none, hash_node_refill mallocOk s, some ENOMEM)

/-- `hash_node_free` (hash.c lines 536-547): push the node onto the head
of the free list. -/
def hash_node_free (node : RawNode) (s : AllocState) : AllocState :=
  { s with hash_free_list := node :: s.hash_free_list }

/-! ### Ordering assumptions and table invariants -/

/-- The caller-supplied comparison callback implements a strict total
order consistent across all keys: some rank function determines the sign
of every comparison. -/
def CmpOrder (cmp : K → K → Int) : Prop :=
  ∃ f : K → Int, ∀ a b, (cmp a b < 0 ↔ f a < f b) ∧ (cmp a b = 0 ↔ f a = f b)

/-- Strict chain order between two nodes. -/
def chainLT (cmp : K → K → Int) (a b : HNode K D) : Prop :=
  cmp a.hkey b.hkey < 0

/-- A bucket chain is in ascending comparator order. -/
def chainSorted (cmp : K → K → Int) (c : List (HNode K D)) : Prop :=
  c.Pairwise (chainLT cmp)

/-- No two entries of the chain compare equal. -/
def chainNoDup (cmp : K → K → Int) (c : List (HNode K D)) : Prop :=
  c.Pairwise fun a b => cmp a.hkey b.hkey ≠ 0

/-- Total number of nodes held in the bucket array. -/
def sumLen (t : List (List (HNode K D))) : Nat :=
  (t.map List.length).sum

/-- The suffix at an insertion point is empty or starts with a node
comparing greater than the key. -/
def headGT (cmp : K → K → Int) (key : K) : List (HNode K D) → Prop
  | [] => True
  | p :: _ => 0 < cmp p.hkey key

/-- Structural well-formedness: the bucket array has exactly `size`
slots and `size` is positive (guaranteed by `hash_create`). -/
def hashWF (h : Hash K D) : Prop :=
  h.table.length = h.size ∧ 0 < h.size

/-- The three structural invariants from spec §3: chain lengths sum to
`count`, no chain holds two entries comparing equal, and every chain is
in ascending comparator order. -/
def hashInv (h : Hash K D) : Prop :=
  h.count = (sumLen h.table : Int) ∧
  (∀ c ∈ h.table, chainNoDup h.cmp_f c) ∧
  (∀ c ∈ h.table, chainSorted h.cmp_f c)

/-- A small concrete table used to instantiate the theorems: three
buckets, comparator `a - b`, hash `Int.natAbs`, one entry (data 70,
key 7) in bucket `natAbs 7 % 3 = 1`. -/
def exampleTable : Hash Int Int :=
  ⟨1, 3, [[], [⟨70, 7⟩], []], fun a b => a - b, false, Int.natAbs⟩

/-! ### Generic list helpers -/

theorem getD_set_self {α : Type} (t : List α) (i : Nat) (a d : α)
    (h : i < t.length) : (t.set i a).getD i d = a := by
  rw [List.getD_eq_getElem?_getD, List.getElem?_set_self (by simpa using h)]
  rfl

theorem sumLen_set (t : List (List (HNode K D))) (i : Nat)
    (c : List (HNode K D)) (h : i < t.length) :
    sumLen (t.set i c) + (t.getD i []).length = sumLen t + c.length := by
  induction t generalizing i with
  | nil => simp at h
  | cons c0 rest ih =>
    cases i with
    | zero => simp [sumLen, List.getD]; omega
    | succ j =>
      have hj : j < rest.length := by simpa using h
      have := ih j hj
      simp only [List.set, sumLen, List.map_cons, List.sum_cons,
        List.getD_cons_succ] at *
      omega

/-! ### The string-hashing function (claim C1) -/

theorem hash_key_string_loop_eq (s : List Nat) :
    ∀ hval, hash_key_string_loop hval s =
      s.foldl (fun h b => (h * 32 + b) % 4294967296) hval := by
  induction s with
  | nil => intro hval; rfl
  | cons b rest ih =>
    intro hval
    rw [hash_key_string_loop, List.foldl_cons, ih]
    congr 1
    omega

/-! ### Chain walk lemmas: find -/

theorem findChain_some {cmp : K → K → Int} {key : K} :
    ∀ {c : List (HNode K D)} {d : D}, findChain cmp key c = some d →
      ∃ n ∈ c, cmp n.hkey key = 0 ∧ n.data = d := by
  intro c
  induction c with
  | nil => intro d h; simp [findChain] at h
  | cons p rest ih =>
    intro d h
    rw [findChain] at h
    split_ifs at h with h1 h2
    · obtain ⟨n, hn, h0, hd⟩ := ih h
      exact ⟨n, List.mem_cons_of_mem _ hn, h0, hd⟩
    · exact ⟨p, List.mem_cons_self _ _, h2, Option.some.inj h⟩

theorem findChain_append {cmp : K → K → Int} {key : K} (n : HNode K D)
    (r : List (HNode K D)) (h0 : cmp n.hkey key = 0) :
    ∀ l : List (HNode K D), (∀ q ∈ l, cmp q.hkey key < 0) →
      findChain cmp key (l ++ n :: r) = some n.data := by
  intro l
  induction l with
  | nil =>
    intro _
    rw [List.nil_append, findChain]
    simp [h0]
  | cons q l ih =>
    intro hl
    have hq := hl q (List.mem_cons_self _ _)
    rw [List.cons_append, findChain, if_pos hq]
    exact ih fun q' hq' => hl q' (List.mem_cons_of_mem _ hq')

/-- In a sorted chain, any entry comparing equal to the key splits the
chain into a strictly-smaller prefix and the rest. -/
theorem chain_match_split {cmp : K → K → Int} (hc : CmpOrder cmp)
    {c : List (HNode K D)} (hs : chainSorted cmp c) {n : HNode K D} {key : K}
    (hn : n ∈ c) (h0 : cmp n.hkey key = 0) :
    ∃ l r, c = l ++ n :: r ∧ ∀ q ∈ l, cmp q.hkey key < 0 := by
  obtain ⟨l, r, rfl⟩ := List.append_of_mem hn
  refine ⟨l, r, rfl, fun q hq => ?_⟩
  obtain ⟨f, hf⟩ := hc
  have hqn : chainLT cmp q n :=
    (List.pairwise_append.mp hs).2.2 q hq n (List.mem_cons_self _ _)
  have h1 : f q.hkey < f n.hkey := (hf _ _).1.mp hqn
  have h2 : f n.hkey = f key := (hf _ _).2.mp h0
  exact (hf _ _).1.mpr (by omega)

theorem findChain_of_mem {cmp : K → K → Int} (hc : CmpOrder cmp)
    {c : List (HNode K D)} (hs : chainSorted cmp c) {n : HNode K D} {key : K}
    (hn : n ∈ c) (h0 : cmp n.hkey key = 0) :
    findChain cmp key c = some n.data := by
  obtain ⟨l, r, rfl, hl⟩ := chain_match_split hc hs hn h0
  exact findChain_append n r h0 l hl

/-! ### Chain walk lemmas: insert -/

theorem insertChain_error {cmp : K → K → Int} {key : K} {data : D} :
    ∀ {c : List (HNode K D)}, insertChain cmp key data c = .error () →
      ∃ n ∈ c, cmp n.hkey key = 0 := by
  intro c
  induction c with
  | nil => intro h; simp [insertChain] at h
  | cons p rest ih =>
    intro h
    rw [insertChain] at h
    split_ifs at h with h1 h2
    · cases hrec : insertChain cmp key data rest with
      | error e =>
        obtain ⟨n, hn, h0⟩ := ih (by cases e; exact hrec)
        exact ⟨n, List.mem_cons_of_mem _ hn, h0⟩
      | ok c'' =>
        rw [hrec] at h
        simp [Except.map] at h
    · exact ⟨p, List.mem_cons_self _ _, h2⟩

theorem insertChain_append_error {cmp : K → K → Int} {key : K} {data : D}
    (n : HNode K D) (r : List (HNode K D)) (h0 : cmp n.hkey key = 0) :
    ∀ l : List (HNode K D), (∀ q ∈ l, cmp q.hkey key < 0) →
      insertChain cmp key data (l ++ n :: r) = .error () := by
  intro l
  induction l with
  | nil => intro _; rw [List.nil_append, insertChain]; simp [h0]
  | cons q l ih =>
    intro hl
    have hq := hl q (List.mem_cons_self _ _)
    rw [List.cons_append, insertChain, if_pos hq,
      ih fun q' hq' => hl q' (List.mem_cons_of_mem _ hq')]
    rfl

theorem insertChain_ok {cmp : K → K → Int} {key : K} {data : D} :
    ∀ {c c' : List (HNode K D)}, insertChain cmp key data c = .ok c' →
      ∃ l r, c = l ++ r ∧ c' = l ++ ⟨data, key⟩ :: r ∧
        (∀ q ∈ l, cmp q.hkey key < 0) ∧ headGT cmp key r := by
  intro c
  induction c with
  | nil =>
    intro c' h
    rw [insertChain] at h
    exact ⟨[], [], by simp, by simpa using (Except.ok.inj h).symm, by simp,
      trivial⟩
  | cons p rest ih =>
    intro c' h
    rw [insertChain] at h
    split_ifs at h with h1 h2
    · cases hrec : insertChain cmp key data rest with
      | error e => rw [hrec] at h; simp [Except.map] at h
      | ok c'' =>
        rw [hrec] at h
        have hc' : c' = p :: c'' := by
          simpa [Except.map] using (Except.ok.inj h).symm
        obtain ⟨l, r, hsplit, hc'', hl, hr⟩ := ih hrec
        refine ⟨p :: l, r, by simp [hsplit], by simp [hc', hc''], ?_, hr⟩
        intro q hq
        rcases List.mem_cons.mp hq with rfl | hq'
        · exact h1
        · exact hl q hq'
    · have hc' : c' = ⟨data, key⟩ :: p :: rest := (Except.ok.inj h).symm
      refine ⟨[], p :: rest, by simp, by simp [hc'], by simp, ?_⟩
      show 0 < cmp p.hkey key
      omega

theorem insertChain_ok_length {cmp : K → K → Int} {key : K} {data : D}
    {c c' : List (HNode K D)} (h : insertChain cmp key data c = .ok c') :
    c'.length = c.length + 1 := by
  obtain ⟨l, r, rfl, rfl, -, -⟩ := insertChain_ok h
  simp only [List.length_append, List.length_cons]
  omega

theorem insertChain_ok_sorted {cmp : K → K → Int} (hc : CmpOrder cmp)
    {key : K} {data : D} {c c' : List (HNode K D)}
    (hs : chainSorted cmp c) (h : insertChain cmp key data c = .ok c') :
    chainSorted cmp c' := by
  obtain ⟨l, r, rfl, rfl, hl, hr⟩ := insertChain_ok h
  obtain ⟨f, hf⟩ := hc
  obtain ⟨hsl, hsr, hlr⟩ := List.pairwise_append.mp hs
  refine List.pairwise_append.mpr ⟨hsl, ?_, ?_⟩
  · rw [List.pairwise_cons]
    refine ⟨fun b hb => ?_, hsr⟩
    show cmp key b.hkey < 0
    cases r with
    | nil => cases hb
    | cons p r' =>
      have hp : 0 < cmp p.hkey key := hr
      have h1 : f key < f p.hkey := by
        have ha := (hf p.hkey key).1
        have hb2 := (hf p.hkey key).2
        omega
      rcases List.mem_cons.mp hb with rfl | hb'
      · exact (hf _ _).1.mpr h1
      · have hpb : chainLT cmp p b := (List.pairwise_cons.mp hsr).1 b hb'
        have h2 : f p.hkey < f b.hkey := (hf _ _).1.mp hpb
        exact (hf _ _).1.mpr (by omega)
  · intro a ha b hb
    rcases List.mem_cons.mp hb with rfl | hb'
    · exact hl a ha
    · exact hlr a ha b hb'

/-- A chain in strictly ascending comparator order has no two entries
comparing equal. -/
theorem chainSorted_noDup {cmp : K → K → Int} (hc : CmpOrder cmp)
    {c : List (HNode K D)} (hs : chainSorted cmp c) : chainNoDup cmp c := by
  obtain ⟨f, hf⟩ := hc
  refine List.Pairwise.imp ?_ hs
  intro a b hab
  have h1 := (hf a.hkey b.hkey).1.mp hab
  have h2 := (hf a.hkey b.hkey).2
  omega

/-! ### Chain walk lemmas: remove -/

theorem removeChain_none {cmp : K → K → Int} {key : K} :
    ∀ {c : List (HNode K D)}, (removeChain cmp key c).1 = none →
      (removeChain cmp key c).2 = c := by
  intro c
  induction c with
  | nil => intro _; rfl
  | cons p rest ih =>
    intro h
    rw [removeChain] at h ⊢
    split_ifs at h ⊢ with h1 h2
    · simpa using ih (by simpa using h)
    · rfl

theorem removeChain_some {cmp : K → K → Int} {key : K} :
    ∀ {c : List (HNode K D)} {d : D}, (removeChain cmp key c).1 = some d →
      ∃ l n r, c = l ++ n :: r ∧ cmp n.hkey key = 0 ∧ n.data = d ∧
        (removeChain cmp key c).2 = l ++ r := by
  intro c
  induction c with
  | nil => intro d h; simp [removeChain] at h
  | cons p rest ih =>
    intro d h
    rw [removeChain] at h
    split_ifs at h with h1 h2
    · obtain ⟨l, n, r, hsplit, h0, hd, h2eq⟩ := ih (by simpa using h)
      refine ⟨p :: l, n, r, by simp [hsplit], h0, hd, ?_⟩
      rw [removeChain]
      simp [h1, h2eq]
    · refine ⟨[], p, rest, by simp, h2, by simpa using h, ?_⟩
      rw [removeChain]
      simp [h1, h2]

theorem removeChain_append {cmp : K → K → Int} {key : K} (n : HNode K D)
    (r : List (HNode K D)) (h0 : cmp n.hkey key = 0) :
    ∀ l : List (HNode K D), (∀ q ∈ l, cmp q.hkey key < 0) →
      removeChain cmp key (l ++ n :: r) = (some n.data, l ++ r) := by
  intro l
  induction l with
  | nil =>
    intro _
    rw [List.nil_append, removeChain]
    simp [h0]
  | cons q l ih =>
    intro hl
    have hq := hl q (List.mem_cons_self _ _)
    rw [List.cons_append, removeChain, if_pos hq,
      ih fun q' hq' => hl q' (List.mem_cons_of_mem _ hq')]
    rfl

theorem removeChain_sublist {cmp : K → K → Int} {key : K} :
    ∀ c : List (HNode K D), (removeChain cmp key c).2.Sublist c := by
  intro c
  induction c with
  | nil => exact .refl _
  | cons p rest ih =>
    rw [removeChain]
    split_ifs with h1 h2
    · exact (ih).cons₂ p
    · exact List.sublist_cons_self p rest
    · exact .refl _

/-! ### Chain walk lemmas: delete_if -/

theorem deleteIfChain_spec (delp : Bool) (pred : D → K → Int) :
    ∀ c : List (HNode K D),
      deleteIfChain delp pred c =
        (c.filter fun p => !decide (0 < pred p.data p.hkey),
         c.countP fun p => decide (0 < pred p.data p.hkey),
         (if delp then
            (c.filter fun p => decide (0 < pred p.data p.hkey)).map (·.data)
          else []),
         c.map fun p => (p.data, p.hkey)) := by
  intro c
  induction c with
  | nil => simp [deleteIfChain]
  | cons p rest ih =>
    by_cases hp : 0 < pred p.data p.hkey <;> cases delp <;>
      simp [deleteIfChain, ih, hp, List.filter_cons, List.countP_cons]

theorem deleteIfTable_spec (delp : Bool) (pred : D → K → Int) :
    ∀ t : List (List (HNode K D)),
      deleteIfTable delp pred t =
        (t.map fun c => c.filter fun p => !decide (0 < pred p.data p.hkey),
         (t.map fun c =>
            c.countP fun p => decide (0 < pred p.data p.hkey)).sum,
         (if delp then
            (t.map fun c =>
              (c.filter fun p => decide (0 < pred p.data p.hkey)).map
                (·.data)).flatten
          else []),
         (t.map fun c => c.map fun p => (p.data, p.hkey)).flatten) := by
  intro t
  induction t with
  | nil => simp [deleteIfTable]
  | cons c rest ih =>
    cases delp <;> simp [deleteIfTable, ih, deleteIfChain_spec]

theorem length_filter_not_add_countP {α : Type} (p : α → Bool) (l : List α) :
    (l.filter fun a => !p a).length + l.countP p = l.length := by
  induction l with
  | nil => rfl
  | cons a l ih =>
    by_cases h : p a <;>
      simp [List.filter_cons, List.countP_cons, h] <;> omega

/-- C1 counterexample: the claim states that `hash_key_string` folds
`hval * 31 + byte` and that `hash_key_string "ab"` is 31·97 + 98 = 3105;
on the code (`hval += (31 * hval) + byte`, i.e. `hval = 32*hval + byte`)
the bytes [97, 98] of "ab" hash to 3202, not 3105. -/
theorem C1_counterexample :
    hash_key_string [97, 98] = 3202 ∧
    hash_key_string_spec31 [97, 98] = 3105 ∧
    hash_key_string [97, 98] ≠ hash_key_string_spec31 [97, 98] ∧
    hash_key_string [97, 98] ≠ 31 * 97 + 98 := by
  refine ⟨by decide, by decide, by decide, by decide⟩

/-- C1 (amended): for every byte string, `hash_key_string` equals the
left fold starting from 0 that updates `hval` to `hval * 32 + b` (that
is, `hval + (hval * 31 + b)`) under unsigned 32-bit wraparound; in
particular the bytes of "ab" hash to 32·97 + 98 = 3202. -/
theorem C1_hash_key_string_amended :
    (∀ s : List Nat, hash_key_string s = hash_key_string_spec32 s) ∧
    hash_key_string [97, 98] = 32 * 97 + 98 := by
  constructor
  · intro s
    rw [hash_key_string, hash_key_string_spec32, hash_key_string_loop_eq]
  · decide

/-! ### Table-level helper lemmas -/

theorem bucketOf_mem {h : Hash K D} (hwf : hashWF h) (key : K) :
    bucketOf h key ∈ h.table := by
  have hslot : h.key_f key % h.size < h.table.length := by
    rw [hwf.1]; exact Nat.mod_lt _ hwf.2
  rw [bucketOf, List.getD_eq_getElem _ _ hslot]
  exact List.getElem_mem hslot

theorem findChain_none {cmp : K → K → Int} {key : K} {c : List (HNode K D)}
    (hno : ∀ n ∈ c, cmp n.hkey key ≠ 0) : findChain cmp key c = none := by
  cases hfc : findChain cmp key c with
  | none => rfl
  | some d =>
    obtain ⟨n, hn, h0, -⟩ := findChain_some hfc
    exact absurd h0 (hno n hn)

theorem removeChain_no_match {cmp : K → K → Int} {key : K}
    {c : List (HNode K D)} (hno : ∀ n ∈ c, cmp n.hkey key ≠ 0) :
    (removeChain cmp key c).1 = none := by
  cases hrc : (removeChain cmp key c).1 with
  | none => rfl
  | some d =>
    obtain ⟨l, n, r, hsplit, h0, -, -⟩ := removeChain_some hrc
    refine absurd h0 (hno n ?_)
    rw [hsplit]
    exact List.mem_append_right _ (List.mem_cons_self _ _)

theorem hash_find_eq_of_bucket {h' : Hash K D} {key : K}
    {c' : List (HNode K D)} {o : Option D}
    (hb : bucketOf h' key = c') (hf : findChain h'.cmp_f key c' = o) :
    hash_find (some h') (some key) = (o, 0) := by
  show (findChain h'.cmp_f key (bucketOf h' key), 0) = (o, 0)
  rw [hb, hf]

theorem hash_remove_eq_of_bucket {h' : Hash K D} {key : K} {d : D}
    {c' c2 : List (HNode K D)}
    (hb : bucketOf h' key = c') (hr : removeChain h'.cmp_f key c' = (some d, c2)) :
    hash_remove (some h') (some key) =
      (some d,
       some { h' with
                table := h'.table.set (h'.key_f key % h'.size) c2,
                count := h'.count - 1 }, 0) := by
  rw [hash_remove, hb, hr]

theorem sumLen_filter_add (pb : HNode K D → Bool)
    (t : List (List (HNode K D))) :
    sumLen (t.map fun c => c.filter fun p => !pb p) +
      (t.map fun c => c.countP pb).sum = sumLen t := by
  induction t with
  | nil => rfl
  | cons c rest ih =>
    simp only [sumLen, List.map_cons, List.sum_cons] at *
    have := length_filter_not_add_countP pb c
    omega

theorem sumLen_map_nil (t : List (List (HNode K D))) :
    sumLen (t.map fun _ => ([] : List (HNode K D))) = 0 := by
  induction t with
  | nil => rfl
  | cons c rest ih => simpa [sumLen, List.map_cons] using ih

theorem sumLen_replicate (n : Nat) :
    sumLen (List.replicate n ([] : List (HNode K D))) = 0 := by
  induction n with
  | zero => rfl
  | succ m ih => simpa [sumLen, List.replicate_succ] using ih

/-! ### Claim theorems -/

/-- C2: `hash_find` computes the bucket as `key_f key % size` (that is,
`bucketOf`) and walks it with the three-way early-exit comparison; under
the chain invariants and a consistent strict-total-order comparator it
returns the stored data if and only if an entry with an equal key is
present, and reports not-found otherwise. -/
theorem C2_hash_find_correct (h : Hash K D) (key : K)
    (hwf : hashWF h) (hinv : hashInv h) (hc : CmpOrder h.cmp_f) :
    (∀ d : D, hash_find (some h) (some key) = (some d, 0) ↔
      ∃ n ∈ bucketOf h key, h.cmp_f n.hkey key = 0 ∧ n.data = d) ∧
    (hash_find (some h) (some key) = (none, 0) ↔
      ∀ n ∈ bucketOf h key, h.cmp_f n.hkey key ≠ 0) := by
  have hs : chainSorted h.cmp_f (bucketOf h key) :=
    hinv.2.2 _ (bucketOf_mem hwf key)
  constructor
  · intro d
    constructor
    · intro hfind
      have hfc : findChain h.cmp_f key (bucketOf h key) = some d := by
        have := congrArg Prod.fst hfind
        simpa [hash_find] using this
      exact findChain_some hfc
    · rintro ⟨n, hn, h0, rfl⟩
      simp [hash_find, findChain_of_mem hc hs hn h0]
  · constructor
    · intro hfind n hn h0
      have := findChain_of_mem hc hs hn h0
      simp [hash_find, this] at hfind
    · intro hnone
      simp [hash_find, findChain_none hnone]

/-- C3: inserting a key comparing equal to an existing entry fails with
errno EEXIST and returns the table unchanged (the allocator is not
consulted: the result is the same for either allocator outcome). -/
theorem C3_hash_insert_eexist (h : Hash K D) (key : K) (d : D)
    (allocOk : Bool) (hwf : hashWF h) (hinv : hashInv h)
    (hc : CmpOrder h.cmp_f)
    (hmem : ∃ n ∈ bucketOf h key, h.cmp_f n.hkey key = 0) :
    hash_insert allocOk (some h) (some key) (some d) =
      (none, some h, some EEXIST) := by
  obtain ⟨n, hn, h0⟩ := hmem
  have hs : chainSorted h.cmp_f (bucketOf h key) :=
    hinv.2.2 _ (bucketOf_mem hwf key)
  obtain ⟨l, r, hsplit, hl⟩ := chain_match_split hc hs hn h0
  have herr : insertChain h.cmp_f key d (bucketOf h key) = .error () := by
    rw [hsplit]
    exact insertChain_append_error n r h0 l hl
  simp [hash_insert, herr]

/-- C7: `hash_find` and `hash_remove` return the absent value with errno
left 0 on not-found, and the absent value with errno EINVAL when the
table or key argument is absent; EINVAL ≠ 0 keeps the outcomes
distinguishable. -/
theorem C7_not_found_vs_einval (h : Hash K D) (key : K)
    (hnomatch : ∀ n ∈ bucketOf h key, h.cmp_f n.hkey key ≠ 0) :
    hash_find (some h) (some key) = (none, 0) ∧
    hash_remove (some h) (some key) = (none, some h, 0) ∧
    (∀ okey : Option K,
      hash_find (none : Option (Hash K D)) okey = (none, EINVAL)) ∧
    hash_find (some h) none = ((none : Option D), EINVAL) ∧
    (∀ okey : Option K,
      hash_remove (none : Option (Hash K D)) okey = (none, none, EINVAL)) ∧
    hash_remove (some h) none = (none, some h, EINVAL) ∧
    EINVAL ≠ 0 := by
  refine ⟨?_, ?_, ?_, rfl, ?_, rfl, by decide⟩
  · simp [hash_find, findChain_none hnomatch]
  · have hrc := removeChain_no_match hnomatch
    rw [hash_remove]
    cases hrm : removeChain h.cmp_f key (bucketOf h key) with
    | mk o c =>
      rw [hrm] at hrc
      cases o with
      | none => rfl
      | some d => simp at hrc
  · intro okey; cases okey <;> rfl
  · intro okey; cases okey <;> rfl

/-- C6: for a fresh key (no entry in its bucket compares equal), insert
succeeds returning the data; find then returns that data; remove returns
it and restores the bucket; a subsequent find reports not-found. -/
theorem C6_insert_find_remove (h : Hash K D) (key : K) (d : D)
    (hwf : hashWF h) (hinv : hashInv h) (hc : CmpOrder h.cmp_f)
    (hfresh : ∀ n ∈ bucketOf h key, h.cmp_f n.hkey key ≠ 0) :
    ∃ h1 h2 : Hash K D,
      hash_insert true (some h) (some key) (some d) =
        (some d, some h1, none) ∧
      hash_find (some h1) (some key) = (some d, 0) ∧
      hash_remove (some h1) (some key) = (some d, some h2, 0) ∧
      hash_find (some h2) (some key) = (none, 0) := by
  have hslot : h.key_f key % h.size < h.table.length := by
    rw [hwf.1]; exact Nat.mod_lt _ hwf.2
  have h00 : h.cmp_f key key = 0 := by
    obtain ⟨f, hf⟩ := hc; exact (hf _ _).2.mpr rfl
  cases hins : insertChain h.cmp_f key d (bucketOf h key) with
  | error e =>
    obtain ⟨n, hn, h0⟩ := insertChain_error (by cases e; exact hins)
    exact absurd h0 (hfresh n hn)
  | ok c' =>
    obtain ⟨l, r, hsplit, hc', hl, -⟩ := insertChain_ok hins
    have G1 : hash_insert true (some h) (some key) (some d) =
        (some d,
         some { h with
                  table := h.table.set (h.key_f key % h.size) c',
                  count := h.count + 1 }, none) := by
      rw [hash_insert, hins]
      rfl
    have hb1 : bucketOf
        { h with
            table := h.table.set (h.key_f key % h.size) c',
            count := h.count + 1 } key = c' :=
      getD_set_self _ _ _ _ hslot
    have hfind1 : findChain h.cmp_f key c' = some d := by
      rw [hc']
      exact findChain_append ⟨d, key⟩ r h00 l hl
    have hrem : removeChain h.cmp_f key c' = (some d, l ++ r) := by
      rw [hc']
      exact removeChain_append ⟨d, key⟩ r h00 l hl
    have hslot2 : h.key_f key % h.size <
        (h.table.set (h.key_f key % h.size) c').length := by
      rw [List.length_set]; exact hslot
    have hb2 : bucketOf
        { h with
            table := (h.table.set (h.key_f key % h.size) c').set
              (h.key_f key % h.size) (l ++ r),
            count := h.count + 1 - 1 } key = l ++ r :=
      getD_set_self _ _ _ _ hslot2
    have hnol : ∀ n ∈ l ++ r, h.cmp_f n.hkey key ≠ 0 := hsplit ▸ hfresh
    exact ⟨_, _, G1, hash_find_eq_of_bucket hb1 hfind1,
      hash_remove_eq_of_bucket hb1 hrem,
      hash_find_eq_of_bucket hb2 (findChain_none hnol)⟩

/-- C5: `hash_delete_if` calls the predicate once on every live entry in
bucket-then-chain order (the call trace equals the flattened table),
removes exactly the entries with positive predicate result, passes each
removed entry's data to the deletion callback exactly when one is
present, and returns the number removed; with an always-positive
predicate it removes every entry and returns the prior count. -/
theorem C5_hash_delete_if (h : Hash K D) (pred : D → K → Int)
    (hinv : hashInv h) :
    ∃ (h' : Hash K D) (n : Nat),
      hash_delete_if (some h) (some pred) =
        ((n : Int),
         some h',
         (if h.del_f then
            (h.table.map fun c =>
              (c.filter fun p => decide (0 < pred p.data p.hkey)).map
                (·.data)).flatten
          else []),
         (h.table.map fun c => c.map fun p => (p.data, p.hkey)).flatten) ∧
      n = (h.table.map fun c =>
             c.countP fun p => decide (0 < pred p.data p.hkey)).sum ∧
      h'.table =
        h.table.map (fun c =>
          c.filter fun p => !decide (0 < pred p.data p.hkey)) ∧
      h'.count = h.count - (n : Int) ∧
      ((∀ c ∈ h.table, ∀ p ∈ c, 0 < pred p.data p.hkey) →
        (n : Int) = h.count ∧ h'.count = 0 ∧ ∀ c ∈ h'.table, c = []) := by
  have hspec := deleteIfTable_spec h.del_f pred h.table
  refine ⟨{ h with
              table := h.table.map fun c =>
                c.filter fun p => !decide (0 < pred p.data p.hkey),
              count := h.count -
                ((((h.table.map fun c =>
                      c.countP fun p =>
                        decide (0 < pred p.data p.hkey)).sum) : Nat) : Int) },
          (h.table.map fun c =>
             c.countP fun p => decide (0 < pred p.data p.hkey)).sum,
          ?_, rfl, rfl, rfl, ?_⟩
  · rw [hash_delete_if, hspec]
  · intro hpos
    have hcount : ∀ c ∈ h.table,
        (c.countP fun p => decide (0 < pred p.data p.hkey)) = c.length := by
      intro c hcmem
      exact List.countP_eq_length.mpr fun p hp => by
        simpa using hpos c hcmem p hp
    have hsum : (h.table.map fun c =>
        c.countP fun p => decide (0 < pred p.data p.hkey)).sum =
          sumLen h.table := by
      rw [sumLen]
      congr 1
      exact List.map_congr_left hcount
    refine ⟨?_, ?_, ?_⟩
    · rw [hsum]
      exact hinv.1.symm
    · show h.count - _ = 0
      rw [hsum]
      have := hinv.1
      omega
    · intro c hcmem
      show c = []
      obtain ⟨c0, hc0, rfl⟩ := List.mem_map.mp hcmem
      exact List.filter_eq_nil_iff.mpr fun p hp => by
        simpa using hpos c0 hc0 p hp

/-- C4: the conjunction of the three structural invariants (together with
structural well-formedness of the bucket array) holds of every table
returned by `hash_create` and is preserved by `hash_insert`,
`hash_remove`, `hash_delete_if` and `hash_reset`; the insert clause
assumes the comparator is a consistent strict total order. -/
theorem C4_invariants_preserved :
    (∀ (allocOk : Bool) (size : Int) (key_f : K → Nat)
       (cmp_f : K → K → Int) (del_f : Bool) (h' : Hash K D),
       (hash_create allocOk size (some key_f) (some cmp_f) del_f).1 =
         some h' → hashWF h' ∧ hashInv h') ∧
    (∀ (allocOk : Bool) (h : Hash K D) (key : K) (d : D) (h' : Hash K D),
       hashWF h → hashInv h → CmpOrder h.cmp_f →
       (hash_insert allocOk (some h) (some key) (some d)).2.1 = some h' →
       hashWF h' ∧ hashInv h') ∧
    (∀ (h : Hash K D) (key : K) (h' : Hash K D),
       hashWF h → hashInv h →
       (hash_remove (some h) (some key)).2.1 = some h' →
       hashWF h' ∧ hashInv h') ∧
    (∀ (h : Hash K D) (pred : D → K → Int) (h' : Hash K D),
       hashWF h → hashInv h →
       (hash_delete_if (some h) (some pred)).2.1 = some h' →
       hashWF h' ∧ hashInv h') ∧
    (∀ (h h' : Hash K D),
       hashWF h → hashInv h →
       (hash_reset (some h)).1 = some h' →
       hashWF h' ∧ hashInv h') := by
  refine ⟨?_, ?_, ?_, ?_, ?_⟩
  · -- create
    intro allocOk size key_f cmp_f del_f h' hyp
    cases allocOk with
    | false => simp [hash_create] at hyp
    | true =>
      rw [hash_create] at hyp
      simp only [if_true] at hyp
      obtain rfl := (Option.some.inj hyp).symm
      constructor
      · refine ⟨by simp, ?_⟩
        show 0 < (if size ≤ 0 then HASH_DEF_SIZE else size.toNat)
        split_ifs with hsz
        · decide
        · omega
      · refine ⟨?_, ?_, ?_⟩
        · show (0 : Int) = (sumLen (List.replicate _ []) : Int)
          rw [sumLen_replicate]
          rfl
        · intro c hcmem
          rw [List.eq_of_mem_replicate hcmem]
          exact List.Pairwise.nil
        · intro c hcmem
          rw [List.eq_of_mem_replicate hcmem]
          exact List.Pairwise.nil
  · -- insert
    intro allocOk h key d h' hwf hinv hc hyp
    cases hins : insertChain h.cmp_f key d (bucketOf h key) with
    | error e =>
      rw [hash_insert, hins] at hyp
      obtain rfl : h = h' := by simpa using hyp
      exact ⟨hwf, hinv⟩
    | ok c =>
      rw [hash_insert, hins] at hyp
      cases allocOk with
      | false =>
        obtain rfl : h = h' := by simpa using hyp
        exact ⟨hwf, hinv⟩
      | true =>
        obtain rfl : { h with
            table := h.table.set (h.key_f key % h.size) c,
            count := h.count + 1 } = h' := by simpa using hyp
        have hslot : h.key_f key % h.size < h.table.length := by
          rw [hwf.1]; exact Nat.mod_lt _ hwf.2
        have hs : chainSorted h.cmp_f (bucketOf h key) :=
          hinv.2.2 _ (bucketOf_mem hwf key)
        have hcsorted : chainSorted h.cmp_f c :=
          insertChain_ok_sorted hc hs hins
        refine ⟨⟨by simpa using hwf.1, hwf.2⟩, ?_, ?_, ?_⟩
        · show h.count + 1 =
            (sumLen (h.table.set (h.key_f key % h.size) c) : Int)
          have h1 := sumLen_set h.table (h.key_f key % h.size) c hslot
          have h2 : c.length = (bucketOf h key).length + 1 :=
            insertChain_ok_length hins
          have h3 := hinv.1
          rw [bucketOf] at h2
          omega
        · intro c0 hc0
          rcases List.mem_or_eq_of_mem_set hc0 with hmem | rfl
          · exact hinv.2.1 c0 hmem
          · exact chainSorted_noDup hc hcsorted
        · intro c0 hc0
          rcases List.mem_or_eq_of_mem_set hc0 with hmem | rfl
          · exact hinv.2.2 c0 hmem
          · exact hcsorted
  · -- remove
    intro h key h' hwf hinv hyp
    cases hrm : removeChain h.cmp_f key (bucketOf h key) with
    | mk o c2 =>
      cases o with
      | none =>
        rw [hash_remove, hrm] at hyp
        obtain rfl : h = h' := by simpa using hyp
        exact ⟨hwf, hinv⟩
      | some d =>
        rw [hash_remove, hrm] at hyp
        obtain rfl : { h with
            table := h.table.set (h.key_f key % h.size) c2,
            count := h.count - 1 } = h' := by simpa using hyp
        have hslot : h.key_f key % h.size < h.table.length := by
          rw [hwf.1]; exact Nat.mod_lt _ hwf.2
        have hsub : c2.Sublist (bucketOf h key) := by
          have := @removeChain_sublist K D h.cmp_f key (bucketOf h key)
          rwa [hrm] at this
        refine ⟨⟨by simpa using hwf.1, hwf.2⟩, ?_, ?_, ?_⟩
        · show h.count - 1 =
            (sumLen (h.table.set (h.key_f key % h.size) c2) : Int)
          obtain ⟨l, n, r, hsplit, -, -, h2eq⟩ :=
            removeChain_some (show (removeChain h.cmp_f key
              (bucketOf h key)).1 = some d by rw [hrm])
          rw [hrm] at h2eq
          have h1 := sumLen_set h.table (h.key_f key % h.size) c2 hslot
          have h3 := hinv.1
          have h4 : (bucketOf h key).length = l.length + r.length + 1 := by
            rw [hsplit]; simp only [List.length_append, List.length_cons]
            omega
          have h5 : c2.length = l.length + r.length := by
            have hc2 : c2 = l ++ r := by simpa using h2eq
            simp [hc2]
          rw [bucketOf] at h4
          omega
        · intro c0 hc0
          rcases List.mem_or_eq_of_mem_set hc0 with hmem | rfl
          · exact hinv.2.1 c0 hmem
          · exact (hinv.2.1 _ (bucketOf_mem hwf key)).sublist hsub
        · intro c0 hc0
          rcases List.mem_or_eq_of_mem_set hc0 with hmem | rfl
          · exact hinv.2.2 c0 hmem
          · exact (hinv.2.2 _ (bucketOf_mem hwf key)).sublist hsub
  · -- delete_if
    intro h pred h' hwf hinv hyp
    rw [hash_delete_if, deleteIfTable_spec] at hyp
    obtain rfl : { h with
        table := h.table.map fun c =>
          c.filter fun p => !decide (0 < pred p.data p.hkey),
        count := h.count - ((h.table.map fun c =>
          c.countP fun p => decide (0 < pred p.data p.hkey)).sum : Nat) } =
        h' := by simpa using hyp
    refine ⟨⟨by simpa using hwf.1, hwf.2⟩, ?_, ?_, ?_⟩
    · show h.count - ((h.table.map fun c =>
          c.countP fun p => decide (0 < pred p.data p.hkey)).sum : Nat) =
        (sumLen (h.table.map fun c =>
          c.filter fun p => !decide (0 < pred p.data p.hkey)) : Int)
      have h1 := sumLen_filter_add
        (fun p => decide (0 < pred p.data p.hkey)) h.table
      have h3 := hinv.1
      omega
    · intro c0 hc0
      obtain ⟨c1, hc1, rfl⟩ := List.mem_map.mp hc0
      exact (hinv.2.1 c1 hc1).sublist (List.filter_sublist c1)
    · intro c0 hc0
      obtain ⟨c1, hc1, rfl⟩ := List.mem_map.mp hc0
      exact (hinv.2.2 c1 hc1).sublist (List.filter_sublist c1)
  · -- reset
    intro h h' hwf hinv hyp
    rw [hash_reset] at hyp
    obtain rfl : { h with
        count := 0,
        table := h.table.map fun _ => ([] : List (HNode K D)) } = h' := by
      simpa using hyp
    refine ⟨⟨by simpa using hwf.1, hwf.2⟩, ?_, ?_, ?_⟩
    · show (0 : Int) =
        (sumLen (h.table.map fun _ => ([] : List (HNode K D))) : Int)
      rw [sumLen_map_nil]
      rfl
    · intro c0 hc0
      obtain ⟨c1, -, rfl⟩ := List.mem_map.mp hc0
      exact List.Pairwise.nil
    · intro c0 hc0
      obtain ⟨c1, -, rfl⟩ := List.mem_map.mp hc0
      exact List.Pairwise.nil

/-- C8: after `hash_reset` the table is empty (count 0, `hash_is_empty`
reports 1, every bucket chain empty) while the bucket array length, the
capacity and the three callbacks are unchanged; the deletion callback,
when present, is invoked on every stored data value. -/
theorem C8_hash_reset (h : Hash K D) :
    ∃ h' : Hash K D,
      hash_reset (some h) =
        (some h',
         if h.del_f then (h.table.map fun c => c.map (·.data)).flatten
         else []) ∧
      h'.count = 0 ∧
      hash_is_empty (some h') = 1 ∧
      (∀ c ∈ h'.table, c = []) ∧
      h'.size = h.size ∧
      h'.table.length = h.table.length ∧
      h'.cmp_f = h.cmp_f ∧ h'.del_f = h.del_f ∧ h'.key_f = h.key_f := by
  refine ⟨_, rfl, rfl, ?_, ?_, rfl, by simp, rfl, rfl, rfl⟩
  · show hash_is_empty (some { h with
      count := 0, table := h.table.map fun _ => [] }) = 1
    rfl
  · intro c hc
    obtain ⟨c1, -, rfl⟩ := List.mem_map.mp hc
    rfl

theorem hash_node_alloc_refill_eq (s : AllocState)
    (h : s.hash_free_list = []) :
    hash_node_alloc true s =
      (some ⟨s.next_id, 0⟩,
       ⟨List.range' s.next_id HASH_NODE_ALLOC_NUM :: s.hash_mem_list,
        (List.range' (s.next_id + 1) (HASH_NODE_ALLOC_NUM - 1)).map
          fun i => ⟨i, 1⟩,
        s.next_id + HASH_NODE_ALLOC_NUM⟩,
       none) := by
  have hre : hash_node_refill true s =
      ⟨List.range' s.next_id HASH_NODE_ALLOC_NUM :: s.hash_mem_list,
       (List.range' s.next_id HASH_NODE_ALLOC_NUM).map fun i => ⟨i, 1⟩,
       s.next_id + HASH_NODE_ALLOC_NUM⟩ := by
    simp [hash_node_refill, h]
  rw [hash_node_alloc, hre]
  rfl

/-- C9: `hash_node_alloc` returns a zeroed slot; on an empty free list it
links exactly one block of `HASH_NODE_ALLOC_NUM` fresh slots onto the
head of the block list, threads the slots into the free list in address
order, and pops the first; it fails with ENOMEM exactly when the free
list is empty and no block can be obtained; `hash_node_free` pushes onto
the head of the free list, and a freed node is the next one allocated
(last-in-first-out reuse). -/
theorem C9_node_allocator :
    (∀ (ok : Bool) (s s' : AllocState) (nd : RawNode) (e : Option Nat),
       hash_node_alloc ok s = (some nd, s', e) → nd.content = 0) ∧
    (∀ s : AllocState, s.hash_free_list = [] →
       hash_node_alloc true s =
         (some ⟨s.next_id, 0⟩,
          ⟨List.range' s.next_id HASH_NODE_ALLOC_NUM :: s.hash_mem_list,
           (List.range' (s.next_id + 1) (HASH_NODE_ALLOC_NUM - 1)).map
             fun i => ⟨i, 1⟩,
           s.next_id + HASH_NODE_ALLOC_NUM⟩,
          none)) ∧
    (∀ (ok : Bool) (s : AllocState),
       ((hash_node_alloc ok s).1 = none ↔
          s.hash_free_list = [] ∧ ok = false) ∧
       ((hash_node_alloc ok s).2.2 = some ENOMEM ↔
          s.hash_free_list = [] ∧ ok = false)) ∧
    (∀ (nd : RawNode) (s : AllocState),
       (hash_node_free nd s).hash_free_list = nd :: s.hash_free_list) ∧
    (∀ (ok : Bool) (nd : RawNode) (s : AllocState),
       hash_node_alloc ok (hash_node_free nd s) =
         (some ⟨nd.id, 0⟩, s, none)) := by
  refine ⟨?_, fun s h => hash_node_alloc_refill_eq s h, ?_,
    fun nd s => rfl, ?_⟩
  · intro ok s s' nd e hyp
    rw [hash_node_alloc] at hyp
    cases hfl : (hash_node_refill ok s).hash_free_list with
    | nil => rw [hfl] at hyp; simp at hyp
    | cons p rest =>
      rw [hfl] at hyp
      have h1 : (⟨p.id, 0⟩ : RawNode) = nd :=
        Option.some.inj (congrArg Prod.fst hyp)
      rw [← h1]
  · intro ok s
    cases hfl : s.hash_free_list with
    | cons p rest =>
      have hre : hash_node_refill ok s = s := by
        simp [hash_node_refill, hfl]
      have heq : hash_node_alloc ok s =
          (some ⟨p.id, 0⟩, { s with hash_free_list := rest }, none) := by
        rw [hash_node_alloc, hre, hfl]
      rw [heq]
      simp [hfl]
    | nil =>
      cases ok with
      | false =>
        have hre : hash_node_refill false s = s := by
          simp [hash_node_refill, hfl]
        have heq : hash_node_alloc false s = (none, s, some ENOMEM) := by
          rw [hash_node_alloc, hre, hfl]
        rw [heq]
        simp [hfl]
      | true =>
        rw [hash_node_alloc_refill_eq s hfl]
        simp [hfl]
  · intro ok nd s
    have hre : hash_node_refill ok (hash_node_free nd s) =
        hash_node_free nd s := by
      simp [hash_node_refill, hash_node_free]
    rw [hash_node_alloc, hre]
    rfl

/-- C10: when the requested capacity is ≤ 0 (callbacks valid, allocation
succeeding), `hash_create` substitutes the default bucket count
`HASH_DEF_SIZE`, whose value is exactly 1213. -/
theorem C10_default_size (size : Int) (key_f : K → Nat)
    (cmp_f : K → K → Int) (del_f : Bool) (hsz : size ≤ 0) :
    ∃ h' : Hash K D,
      (hash_create true size (some key_f) (some cmp_f) del_f).1 =
        some h' ∧
      h'.size = 1213 ∧ h'.table.length = 1213 ∧ HASH_DEF_SIZE = 1213 := by
  refine ⟨⟨0, HASH_DEF_SIZE, List.replicate HASH_DEF_SIZE [], cmp_f,
           del_f, key_f⟩, ?_, rfl, by rw [List.length_replicate]; rfl, rfl⟩
  rw [hash_create]
  simp [hsz]

/-! ### Concrete instances used by the witnesses -/

theorem exampleCmpOrder : CmpOrder (fun a b : Int => a - b) :=
  ⟨fun x => x, fun a b =>
    ⟨by show a - b < 0 ↔ a < b; omega, by show a - b = 0 ↔ a = b; omega⟩⟩

theorem exampleWF : hashWF exampleTable := ⟨rfl, by decide⟩

theorem exampleInv : hashInv exampleTable := by
  refine ⟨rfl, ?_, ?_⟩ <;>
    · intro c hc
      fin_cases hc <;> simp [chainNoDup, chainSorted]

/-- Witness for C2: finding the stored entry in the concrete table. -/
theorem C2_witness :
    hash_find (some exampleTable) (some 7) = (some 70, 0) :=
  ((C2_hash_find_correct exampleTable 7 exampleWF exampleInv
      exampleCmpOrder).1 70).mpr
    ⟨⟨70, 7⟩, by decide, by decide, rfl⟩

/-- Witness for C3: re-inserting key 7 fails with EEXIST, table intact. -/
theorem C3_witness :
    hash_insert true (some exampleTable) (some 7) (some 99) =
      (none, some exampleTable, some EEXIST) :=
  C3_hash_insert_eexist exampleTable 7 99 true exampleWF exampleInv
    exampleCmpOrder ⟨⟨70, 7⟩, by decide, by decide⟩

/-- Witness for C4: the invariants after inserting a fresh key into the
concrete table. -/
theorem C4_witness :
    hashWF (⟨2, 3, [[], [⟨70, 7⟩], [⟨50, 5⟩]],
      fun a b => a - b, false, Int.natAbs⟩ : Hash Int Int) ∧
    hashInv (⟨2, 3, [[], [⟨70, 7⟩], [⟨50, 5⟩]],
      fun a b => a - b, false, Int.natAbs⟩ : Hash Int Int) :=
  C4_invariants_preserved.2.1 true exampleTable 5 50 _ exampleWF exampleInv
    exampleCmpOrder rfl

/-- Witness for C5: delete_if with an always-positive predicate on the
concrete table. -/
theorem C5_witness :
    ∃ (h' : Hash Int Int) (n : Nat),
      hash_delete_if (some exampleTable) (some fun _ _ => (1 : Int)) =
        ((n : Int), some h',
         (if exampleTable.del_f then
            (exampleTable.table.map fun c =>
              (c.filter fun _ => decide ((0 : Int) < 1)).map
                (·.data)).flatten
          else []),
         (exampleTable.table.map fun c =>
            c.map fun p => (p.data, p.hkey)).flatten) ∧
      n = (exampleTable.table.map fun c =>
             c.countP fun _ => decide ((0 : Int) < 1)).sum ∧
      h'.table = exampleTable.table.map (fun c =>
          c.filter fun _ => !decide ((0 : Int) < 1)) ∧
      h'.count = exampleTable.count - (n : Int) ∧
      ((∀ c ∈ exampleTable.table, ∀ p ∈ c, (0 : Int) < 1) →
        (n : Int) = exampleTable.count ∧ h'.count = 0 ∧
          ∀ c ∈ h'.table, c = []) :=
  C5_hash_delete_if exampleTable (fun _ _ => 1) exampleInv

/-- Witness for C6: the insert/find/remove/find round trip at key 5. -/
theorem C6_witness :
    ∃ h1 h2 : Hash Int Int,
      hash_insert true (some exampleTable) (some 5) (some 50) =
        (some 50, some h1, none) ∧
      hash_find (some h1) (some 5) = (some 50, 0) ∧
      hash_remove (some h1) (some 5) = (some 50, some h2, 0) ∧
      hash_find (some h2) (some 5) = (none, 0) :=
  C6_insert_find_remove exampleTable 5 50 exampleWF exampleInv
    exampleCmpOrder (by decide)

/-- Witness for C7: not-found versus EINVAL on the concrete table. -/
theorem C7_witness :
    hash_find (some exampleTable) (some 1) = (none, 0) ∧
    hash_remove (some exampleTable) (some 1) =
      (none, some exampleTable, 0) ∧
    (∀ okey : Option Int,
      hash_find (none : Option (Hash Int Int)) okey = (none, EINVAL)) ∧
    hash_find (some exampleTable) none = ((none : Option Int), EINVAL) ∧
    (∀ okey : Option Int,
      hash_remove (none : Option (Hash Int Int)) okey =
        (none, none, EINVAL)) ∧
    hash_remove (some exampleTable) none =
      (none, some exampleTable, EINVAL) ∧
    EINVAL ≠ 0 :=
  C7_not_found_vs_einval exampleTable 1 (by decide)

/-- Witness for C9: the first allocation from an empty pool carves one
block and returns its first slot, zeroed. -/
theorem C9_witness :
    hash_node_alloc true ⟨[], [], 0⟩ =
      (some ⟨0, 0⟩,
       ⟨[List.range' 0 HASH_NODE_ALLOC_NUM],
        (List.range' 1 (HASH_NODE_ALLOC_NUM - 1)).map fun i => ⟨i, 1⟩,
        HASH_NODE_ALLOC_NUM⟩,
       none) :=
  C9_node_allocator.2.1 ⟨[], [], 0⟩ rfl

/-- Witness for C10: creating with capacity 0 yields 1213 buckets. -/
theorem C10_witness :
    ∃ h' : Hash Int Int,
      (hash_create true 0 (some Int.natAbs)
        (some fun a b => a - b) false).1 = some h' ∧
      h'.size = 1213 ∧ h'.table.length = 1213 ∧ HASH_DEF_SIZE = 1213 :=
  C10_default_size 0 Int.natAbs (fun a b => a - b) false (by decide)

end Munge
